import Mathlib

/-!
Shallow embedding of the two-tier markdown chunking and hybrid retrieval
subsystem of the repository (files
`packages/shared/rag_pipeline/rag/markdown_chunker.py`,
`packages/shared/rag_pipeline/rag/retriever.py`, and the `/search` endpoint of
`api/main.py`).

Python strings are modelled as `List Char`; Python `float` configuration
percentages are modelled as exact rationals (`ℚ`), and Python `int(x)` on a
nonnegative value is rational floor.  Network calls (the OpenAI embedder, the
FAISS index lookup, the ZeroEntropy rerank HTTP call) are modelled as fields of
an explicit environment record, and each call made is recorded in a call log;
a raised Python exception is modelled as `Except.error`.
-/

namespace RagPipeline

/-! ## Python string primitives -/

/-- Python `str` whitespace characters (`\s` for the ASCII range used by the
repository's documents). -/
def isPyWs (c : Char) : Bool :=
  c = ' ' || c = '\t' || c = '\n' || c = '\r' || c = '\x0b' || c = '\x0c'

/-- Python `str.lstrip()`. -/
def pyLstrip (s : List Char) : List Char := s.dropWhile isPyWs

/-- Python `str.rstrip()`. -/
def pyRstrip (s : List Char) : List Char := (s.reverse.dropWhile isPyWs).reverse

/-- Python `str.strip()`. -/
def pyStrip (s : List Char) : List Char := pyRstrip (pyLstrip s)

/-- Python `str.split('\n')` (always at least one piece; `"".split('\n') == [""]`). -/
def splitLinesAux : List Char → List Char → List (List Char)
  | [], cur => [cur.reverse]
  | '\n' :: rest, cur => cur.reverse :: splitLinesAux rest []
  | c :: rest, cur => splitLinesAux rest (c :: cur)

def splitLines (s : List Char) : List (List Char) := splitLinesAux s []

/-- Scanner for `re.split(r'\n\n+', text)`: `cur` is the current segment
(reversed) and `nl` counts newlines seen but not yet classified.  A run
of ≥ 2 newlines is a separator (the regex is greedy, so every separator
is a maximal newline run); a single newline belongs to the segment. -/
def splitParasGo : List Char → List Char → Nat → List (List Char)
  | [], cur, nl =>
      if 2 ≤ nl then [cur.reverse, []] else [(List.replicate nl '\n' ++ cur).reverse]
  | '\n' :: rest, cur, nl => splitParasGo rest cur (nl + 1)
  | c :: rest, cur, nl =>
      if 2 ≤ nl then cur.reverse :: splitParasGo rest [c] 0
      else splitParasGo rest (c :: (List.replicate nl '\n' ++ cur)) 0

/-- `re.split(r'\n\n+', text)`. -/
def splitParas (s : List Char) : List (List Char) := splitParasGo s [] 0

/-- The two-character blank-line separator `"\n\n"` used between packed
paragraphs and in front of injected overlap text. -/
def nlnl : List Char := ['\n', '\n']

/-! ## BoundaryChunker: `MarkdownChunker.split_at_paragraph_boundary` -/

/-- The greedy paragraph-packing loop shared by
`split_at_paragraph_boundary` and the inline fine-splitting loop of
`create_fine_chunks`: the paragraph list has already been `.strip()`ed and
emptied of blank paragraphs (the loop's `continue`). -/
def packLoop (maxSize : Nat) : List (List Char) → List Char → List (List Char) → List (List Char)
  | [], cur, acc => if cur = [] then acc else acc ++ [pyStrip cur]
  | p :: ps, cur, acc =>
      if cur ≠ [] ∧ cur.length + p.length + 2 > maxSize then
        packLoop maxSize ps p (acc ++ [pyStrip cur])
      else
        packLoop maxSize ps (if cur = [] then p else cur ++ nlnl ++ p) acc

/-- `MarkdownChunker.split_at_paragraph_boundary(text, max_size)`. -/
def splitAtParagraphBoundary (text : List Char) (maxSize : Nat) : List (List Char) :=
  if text.length ≤ maxSize then [text]
  else packLoop maxSize (((splitParas text).map pyStrip).filter (· ≠ [])) [] []

/-! ## OverlapInjector: `MarkdownChunker.add_overlap` -/

/-- Python `int(n * pct)` for a natural `n` and a rational percentage:
`n * pct = (n * pct.num) / pct.den`, truncated toward zero (`Int.tdiv`),
exactly Python's `int()`; for the library's nonnegative percentages this
is the floor.  The float percentage is modelled as an exact rational. -/
def pyIntTimes (n : Nat) (pct : ℚ) : ℤ := ((n : ℤ) * pct.num).tdiv (pct.den : ℤ)

/-- Python slice `s[i:]` for an integer `i`: nonnegative `i` drops `i`
characters from the front; negative `i` keeps the last `-i` characters
(clamped).  In particular `s[-0:] = s[0:]` is the whole string. -/
def pySliceFrom (s : List Char) (i : ℤ) : List Char :=
  if 0 ≤ i then s.drop i.toNat else s.drop (s.length - (-i).toNat)

/-- The body of the `i > 0` branch of `add_overlap`:
`prev_chunk[-overlap_size:].lstrip() + "\n\n" + chunk` with
`overlap_size = int(len(prev_chunk) * overlap_pct)`. -/
def overlapPrepend (prev : List Char) (pct : ℚ) (chunk : List Char) : List Char :=
  pyLstrip (pySliceFrom prev (-(pyIntTimes prev.length pct))) ++ nlnl ++ chunk

/-- The loop of `add_overlap` for indices `i > 0`; `prev` is the
*pre-overlap* previous chunk `chunks[i-1]`. -/
def addOverlapAux (pct : ℚ) : List Char → List (List Char) → List (List Char)
  | _, [] => []
  | prev, c :: rest => overlapPrepend prev pct c :: addOverlapAux pct c rest

/-- `MarkdownChunker.add_overlap(chunks, overlap_pct)`: chunk 0 unchanged,
every later chunk prefixed with overlap text from its pre-overlap
predecessor (lists of length ≤ 1 are returned unchanged, which the
recursion below also does). -/
def addOverlap (chunks : List (List Char)) (pct : ℚ) : List (List Char) :=
  match chunks with
  | [] => []
  | c :: rest => c :: addOverlapAux pct c rest

/-! ## HierarchyExtractor: `MarkdownChunker.extract_hierarchy` -/

/-- Match of `re.match(r'^(#{1,6})\s+(.+)$', line)` on a single line
(the line contains no newline).  Matches iff the line starts with 1–6 `#`
followed by a whitespace character and at least one further character;
the captured heading text `.strip()`ed equals the strip of everything
after the `#` run. -/
def headingOf (line : List Char) : Option (List Char × Nat) :=
  let k := (line.takeWhile (· = '#')).length
  let rest := line.drop k
  if 1 ≤ k ∧ k ≤ 6 ∧ (match rest with
      | c :: _ :: _ => isPyWs c
      | _ => false) = true
  then some (pyStrip rest, k)
  else none

/-- `MarkdownChunker.extract_hierarchy`: `(heading_text, level, line_number)`
for every heading line, in document order. -/
def extractHierarchy (s : List Char) : List (List Char × Nat × Nat) :=
  ((splitLines s).zip (List.range (splitLines s).length)).filterMap fun p =>
    match headingOf p.1 with
    | some (t, lvl) => some (t, lvl, p.2)
    | none => none

/-! ## SectionSplitter: `MarkdownChunker.split_into_sections` -/

structure SectionInfo where
  heading_hierarchy : List (List Char)
  text : List Char
  char_start : Nat
  char_end : Nat
  deriving DecidableEq, Repr

/-- The heading loop of `split_into_sections`: `stack` is the current
`hierarchy_stack` of `(text, level)` pairs; on each heading, entries with
level ≥ the new level are removed and the new heading pushed. -/
def sectionsAux (lines : List (List Char)) :
    List (List Char × Nat) → List (List Char × Nat × Nat) → List SectionInfo
  | _, [] => []
  | stack, (text, lvl, lineNum) :: rest =>
      let stack' := (stack.filter fun h => h.2 < lvl) ++ [(text, lvl)]
      let endLine := match rest with
        | (_, _, n) :: _ => n
        | [] => lines.length
      let sectionText := List.intercalate ['\n'] ((lines.drop lineNum).take (endLine - lineNum))
      let charStart := ((lines.take lineNum).map fun l => l.length + 1).sum
      { heading_hierarchy := stack'.map Prod.fst
        text := sectionText
        char_start := charStart
        char_end := charStart + sectionText.length } :: sectionsAux lines stack' rest

/-- `MarkdownChunker.split_into_sections`. -/
def splitIntoSections (s : List Char) : List SectionInfo :=
  let headings := extractHierarchy s
  if headings = [] then
    [{ heading_hierarchy := ["Document".toList], text := s, char_start := 0, char_end := s.length }]
  else sectionsAux (splitLines s) [] headings

/-! ## Markdown cleaning in `create_coarse_chunks` -/

/-- Scanner for `re.sub(r'\n---+\n', '\n\n', text)`: the state is `none`
(plain scanning) or `some d` (a `\n` followed by `d` dashes is pending).
A pending `\n` + ≥ 3 dashes closed by `\n` is a match, replaced by a
blank line, with scanning resuming after the consumed trailing newline;
anything else flushes the pending characters unchanged (`---+` is greedy,
so a match always consumes a maximal dash run). -/
def cleanHrGo : List Char → Option Nat → List Char
  | [], none => []
  | [], some d => '\n' :: List.replicate d '-'
  | c :: rest, none =>
      if c = '\n' then cleanHrGo rest (some 0) else c :: cleanHrGo rest none
  | c :: rest, some d =>
      if c = '-' then cleanHrGo rest (some (d + 1))
      else if c = '\n' then
        if 3 ≤ d then '\n' :: '\n' :: cleanHrGo rest none
        else '\n' :: (List.replicate d '-' ++ cleanHrGo rest (some 0))
      else '\n' :: (List.replicate d '-' ++ (c :: cleanHrGo rest none))

/-- `re.sub(r'\n---+\n', '\n\n', text)`. -/
def cleanHr (s : List Char) : List Char := cleanHrGo s none

/-- Scanner for `re.sub(r'\n{3,}', '\n\n', text)`: `nl` counts pending
newlines; each maximal run of three or more newlines is replaced by
exactly two. -/
def cleanNlGo : List Char → Nat → List Char
  | [], nl => if 3 ≤ nl then ['\n', '\n'] else List.replicate nl '\n'
  | c :: rest, nl =>
      if c = '\n' then cleanNlGo rest (nl + 1)
      else (if 3 ≤ nl then ['\n', '\n'] else List.replicate nl '\n') ++ (c :: cleanNlGo rest 0)

/-- `re.sub(r'\n{3,}', '\n\n', text)`. -/
def cleanNl (s : List Char) : List Char := cleanNlGo s 0

/-! ## ChunkHierarchyBuilder: the `Chunk` dataclass and
`create_coarse_chunks` / `create_fine_chunks` / `chunk_document` -/

structure Chunk where
  text : List Char
  chunk_id : List Char
  chunk_type : List Char
  paper_id : List Char
  paper_title : List Char
  section_hierarchy : List (List Char)
  char_start : Nat
  char_end : Nat
  chunk_index : Nat
  total_chunks : Nat
  overlap_with_previous : Bool
  deriving DecidableEq, Repr

/-- The chunker's size/overlap configuration (constructor defaults of
`MarkdownChunker.__init__`; the target sizes are stored but unused by the
chunking code paths). -/
structure ChunkerConfig where
  coarse_target_size : Nat := 2000
  coarse_max_size : Nat := 2500
  fine_target_size : Nat := 300
  fine_max_size : Nat := 450
  coarse_overlap_pct : ℚ := mkRat 1 10
  fine_overlap_pct : ℚ := mkRat 1 5
  deriving DecidableEq, Repr

def defaultConfig : ChunkerConfig := {}

/-- `f"{i:04d}"`: decimal digits left-padded with zeros to width 4. -/
def pad4 (s : List Char) : List Char := List.replicate (4 - s.length) '0' ++ s

/-- `f"{paper_id}_{ty}_{i:04d}"`. -/
def chunkIdOf (pid ty : List Char) (i : Nat) : List Char :=
  pid ++ ('_' :: ty) ++ ('_' :: pad4 (Nat.toDigits 10 i))

def coarseTy : List Char := "coarse".toList
def fineTy : List Char := "fine".toList

/-- A raw (pre-overlap) chunk record of `create_coarse_chunks`. -/
structure RawChunk where
  text : List Char
  hierarchy : List (List Char)
  char_start : Nat
  deriving DecidableEq, Repr

/-- The `Chunk` construction loop of `create_coarse_chunks`
(`enumerate(zip(overlapped_texts, raw_chunks))`, starting at index `i`). -/
def mkCoarse (pid title : List Char) (total : Nat) :
    Nat → List (List Char × RawChunk) → List Chunk
  | _, [] => []
  | i, (t, r) :: rest =>
      { text := t
        chunk_id := chunkIdOf pid coarseTy i
        chunk_type := coarseTy
        paper_id := pid
        paper_title := title
        section_hierarchy := r.hierarchy
        char_start := r.char_start
        char_end := r.char_start + t.length
        chunk_index := i
        total_chunks := total
        overlap_with_previous := decide (i > 0) } :: mkCoarse pid title total (i + 1) rest

/-- The `raw_chunks` local of `create_coarse_chunks`: the cleaned text's
sections, each split at paragraph boundaries, flattened in order. -/
def coarseRaw (cfg : ChunkerConfig) (markdown_text : List Char) : List RawChunk :=
  ((splitIntoSections (cleanNl (cleanHr markdown_text))).map fun sec =>
    (splitAtParagraphBoundary sec.text cfg.coarse_max_size).map fun t =>
      { text := t, hierarchy := sec.heading_hierarchy, char_start := sec.char_start }).flatten

/-- The `overlapped_texts` local of `create_coarse_chunks`. -/
def coarseOverlapped (cfg : ChunkerConfig) (markdown_text : List Char) : List (List Char) :=
  addOverlap ((coarseRaw cfg markdown_text).map (·.text)) cfg.coarse_overlap_pct

/-- `MarkdownChunker.create_coarse_chunks(markdown_text, paper_id, paper_title)`. -/
def createCoarseChunks (cfg : ChunkerConfig) (markdown_text pid title : List Char) : List Chunk :=
  mkCoarse pid title (coarseOverlapped cfg markdown_text).length 0
    ((coarseOverlapped cfg markdown_text).zip (coarseRaw cfg markdown_text))

/-- The overlapped fine piece texts derived from one coarse chunk inside
`create_fine_chunks`: the same paragraph-packing loop as
`split_at_paragraph_boundary` (without its small-text shortcut), then
`add_overlap` at the fine percentage. -/
def finePieces (cfg : ChunkerConfig) (c : Chunk) : List (List Char) :=
  let chunk_texts :=
    packLoop cfg.fine_max_size (((splitParas c.text).map pyStrip).filter (· ≠ [])) [] []
  addOverlap chunk_texts cfg.fine_overlap_pct

/-- The fine `Chunk` construction loop for one parent coarse chunk: `g` is
the document-global running index `global_index`, `i` the position of the
piece within its parent (`enumerate(overlapped_texts)`);
`total_chunks` is filled with 0 and updated afterwards. -/
def mkFine (parent : Chunk) : Nat → Nat → List (List Char) → List Chunk
  | _, _, [] => []
  | g, i, t :: rest =>
      { text := t
        chunk_id := chunkIdOf parent.paper_id fineTy g
        chunk_type := fineTy
        paper_id := parent.paper_id
        paper_title := parent.paper_title
        section_hierarchy := parent.section_hierarchy
        char_start := parent.char_start
        char_end := parent.char_start + t.length
        chunk_index := g
        total_chunks := 0
        overlap_with_previous := decide (i > 0) } :: mkFine parent (g + 1) (i + 1) rest

/-- The outer loop of `create_fine_chunks` over the coarse chunks,
threading `global_index`. -/
def fineLoop (cfg : ChunkerConfig) : Nat → List Chunk → List Chunk
  | _, [] => []
  | g, c :: rest =>
      let pieces := finePieces cfg c
      mkFine c g 0 pieces ++ fineLoop cfg (g + pieces.length) rest

/-- `MarkdownChunker.create_fine_chunks(coarse_chunks)`: build all fine
chunks, then set every `total_chunks` to the final global count. -/
def createFineChunks (cfg : ChunkerConfig) (coarse : List Chunk) : List Chunk :=
  (fineLoop cfg 0 coarse).map fun c => { c with total_chunks := (fineLoop cfg 0 coarse).length }

structure ChunkResult where
  coarse : List Chunk
  fine : List Chunk
  deriving DecidableEq, Repr

/-- `MarkdownChunker.chunk_document(markdown_text, paper_id, paper_title,
create_both_types)`. -/
def chunkDocument (cfg : ChunkerConfig) (markdown_text pid title : List Char)
    (create_both_types : Bool) : ChunkResult :=
  let coarse := createCoarseChunks cfg markdown_text pid title
  { coarse := coarse
    fine := if create_both_types then createFineChunks cfg coarse else [] }

/-! ## HybridRetriever (`retriever.py`) and the `/search` endpoint
(`api/main.py`)

External network effects are an explicit environment: the OpenAI embedder
call (which can raise), the FAISS index lookup, the metadata table, and
the ZeroEntropy rerank HTTP call (which can yield a transport error or an
HTTP response).  Every call made is appended to a call log.  A raised
Python exception is `Except.error`. -/

structure SearchResult where
  chunk_id : String
  paper_id : String
  paper_title : String
  text : String
  section_hierarchy : List String
  score : Int
  rank : Nat
  deriving DecidableEq, Repr

structure ChunkMeta where
  chunk_id : String
  paper_id : String
  paper_title : String
  text : String
  section_hierarchy : List String
  deriving DecidableEq, Repr

/-- Python exceptions that can escape the retriever code, plus the spec's
error taxonomy names used to state the claims (the retriever source never
raises `validationFailure` or `configurationFailure`). -/
inductive PyErr where
  | transport
  | embedFailure
  | indexOutOfRange
  | validationFailure
  | configurationFailure
  deriving DecidableEq, Repr

/-- One network call performed by the retriever stack. -/
inductive CallEvent where
  | embedCall (query : List Char)
  | indexCall
  | rerankCall (query : List Char)
  deriving DecidableEq, Repr

/-- Outcome of the `requests.post` in `ZeroEntropyReranker.rerank`: either
the request raises (timeout / connection failure) or an HTTP response with
a status code and the parsed `results` items `(index, relevance_score?)`
arrives. -/
inductive RerankOutcome where
  | transportError
  | httpResponse (status : Nat) (body : List (Nat × Option Int))
  deriving DecidableEq, Repr

structure RetrieverEnv where
  embed : List Char → Except PyErr Nat
  indexSearch : Nat → Nat → List (Int × Int)
  metadata : Int → ChunkMeta
  rerankResponse : List Char → List String → Nat → RerankOutcome

deriving instance DecidableEq for Except

/-- The result-building loop of `FAISSRetriever.search`: ranks enumerate
from `rank0`, and the loop `break`s at the `-1` sentinel index. -/
def buildResults (meta : Int → ChunkMeta) : Nat → List (Int × Int) → List SearchResult
  | _, [] => []
  | rank, (idx, score) :: rest =>
      if idx = -1 then []
      else
        let m := meta idx
        { chunk_id := m.chunk_id
          paper_id := m.paper_id
          paper_title := m.paper_title
          text := m.text
          section_hierarchy := m.section_hierarchy
          score := score
          rank := rank } :: buildResults meta (rank + 1) rest

/-- `FAISSRetriever.search(query, top_k)`: embed the query (a network call
that may raise), query the index, build ranked results. -/
def faissSearch (env : RetrieverEnv) (query : List Char) (top_k : Nat) :
    Except PyErr (List SearchResult) × List CallEvent :=
  match env.embed query with
  | .error e => (.error e, [.embedCall query])
  | .ok emb =>
      (.ok (buildResults env.metadata 0 (env.indexSearch emb top_k)),
       [.embedCall query, .indexCall])

/-- The response-parsing loop of `ZeroEntropyReranker.rerank`
(`results[original_idx]` raises when the index is out of range). -/
def rerankBuild (results : List SearchResult) :
    Nat → List (Nat × Option Int) → Except PyErr (List SearchResult)
  | _, [] => .ok []
  | rank, (idx, scoreOpt) :: rest =>
      match results.get? idx with
      | none => .error .indexOutOfRange
      | some orig =>
          match rerankBuild results (rank + 1) rest with
          | .error e => .error e
          | .ok tail =>
              .ok ({ orig with score := scoreOpt.getD orig.score, rank := rank } :: tail)

/-- `ZeroEntropyReranker.rerank(query, results, top_k)`: empty candidate
lists short-circuit; a transport error of `requests.post` propagates
(there is no try/except); a non-200 status falls back to
`results[:top_k]`; a 200 response is parsed into reranked results. -/
def rerank (env : RetrieverEnv) (query : List Char) (results : List SearchResult)
    (top_k : Nat) : Except PyErr (List SearchResult) × List CallEvent :=
  if results.isEmpty then (.ok [], [])
  else
    let documents := results.map (·.text)
    match env.rerankResponse query documents (min top_k documents.length) with
    | .transportError => (.error .transport, [.rerankCall query])
    | .httpResponse status body =>
        if status ≠ 200 then (.ok (results.take top_k), [.rerankCall query])
        else (rerankBuild results 0 body, [.rerankCall query])

/-- The `HybridRetriever` constructor state: whether a reranker is wired
and the configured FAISS candidate count (default 75). -/
structure HybridRetriever where
  rerankerConfigured : Bool
  faiss_candidates : Nat := 75
  deriving DecidableEq, Repr

/-- `HybridRetriever.search(query, top_k, use_reranker)`: FAISS retrieval
for `faiss_candidates` candidates, then reranking when enabled and
configured, otherwise truncation to `top_k`.  There is no query
validation in this method. -/
def hybridSearch (env : RetrieverEnv) (r : HybridRetriever) (query : List Char)
    (top_k : Nat) (use_reranker : Bool) :
    Except PyErr (List SearchResult) × List CallEvent :=
  match faissSearch env query r.faiss_candidates with
  | (.error e, log) => (.error e, log)
  | (.ok candidates, log) =>
      if use_reranker ∧ r.rerankerConfigured then
        let (res, log2) := rerank env query candidates top_k
        (res, log ++ log2)
      else (.ok (candidates.take top_k), log)

/-- The HTTP-level failure of the `/search` endpoint of `api/main.py`:
either an explicit `HTTPException` or an exception escaping the handler. -/
inductive ApiFailure where
  | httpException (status : Nat) (detail : String)
  | unhandled (e : PyErr)
  deriving DecidableEq, Repr

structure ApiSearchRequest where
  query : List Char
  top_k : Nat := 10
  use_reranker : Bool := true

structure ApiSearchResponse where
  results : List SearchResult
  total_results : Nat
  deriving DecidableEq, Repr

/-- The `/search` endpoint of `api/main.py`: 503 when no retriever is
loaded, 400 when the stripped query is empty — both checked *before* any
retriever (and hence any network) call. -/
def apiSearch (env : RetrieverEnv) (retrieverState : Option HybridRetriever)
    (req : ApiSearchRequest) : Except ApiFailure ApiSearchResponse × List CallEvent :=
  match retrieverState with
  | none => (.error (.httpException 503 "Retriever not loaded"), [])
  | some r =>
      if pyStrip req.query = [] then
        (.error (.httpException 400 "Query cannot be empty"), [])
      else
        match hybridSearch env r req.query req.top_k req.use_reranker with
        | (.error e, log) => (.error (.unhandled e), log)
        | (.ok results, log) => (.ok { results := results, total_results := results.length }, log)

/-! ## Concrete instances used by counterexamples and witnesses -/

/-- The spec's reading of "the last `k` characters" of a string: the true
length-`k` suffix, empty when `k = 0`.  Stated from the spec's words, for
comparison with the code's Python slice `s[-k:]` (which is the whole
string when `k = 0`). -/
def specLastChars (s : List Char) (k : Nat) : List Char := s.drop (s.length - k)

/-- The §8 hierarchy test document: headings `# A`, `## B`, `## C`, `# D`,
each followed by a content line. -/
def docHier : List Char := "# A\nintro\n## B\nbbb\n## C\nccc\n# D\nddd".toList

/-- A 40-character paragraph of repeated `c`. -/
def para40 (c : Char) : List Char := List.replicate 40 c

/-- Three 40-character paragraphs separated by blank lines (124 characters). -/
def docPack : List Char := para40 'a' ++ nlnl ++ para40 'b' ++ nlnl ++ para40 'c'

/-- A small configuration making multi-chunk documents tiny enough to
evaluate: the chunker is instantiated with these sizes instead of the
2500/450 defaults. -/
def cfgSmall : ChunkerConfig :=
  { coarse_max_size := 20, fine_max_size := 10 }

/-- A three-paragraph document producing three coarse chunks under
`cfgSmall`, whose second coarse chunk splits into two fine pieces. -/
def docSmall : List Char := "aaaa bbbb cccc\n\ndddd eeee ffff\n\ngggg hhhh".toList

/-- A default `Chunk` value for `List.getD`. -/
def noChunk : Chunk :=
  { text := [], chunk_id := [], chunk_type := [], paper_id := [], paper_title := []
    section_hierarchy := [], char_start := 0, char_end := 0, chunk_index := 0
    total_chunks := 0, overlap_with_previous := false }

def metaA : ChunkMeta :=
  { chunk_id := "c0", paper_id := "p0", paper_title := "t0", text := "text0"
    section_hierarchy := ["S"] }

/-- Environment whose reranker call suffers a transport failure
(timeout / connection error): `requests.post` raises. -/
def envTransport : RetrieverEnv :=
  { embed := fun _ => .ok 0
    indexSearch := fun _ _ => [(0, 9), (1, 7)]
    metadata := fun _ => metaA
    rerankResponse := fun _ _ _ => .transportError }

/-- Environment whose reranker call returns a non-success HTTP response. -/
def envHttp500 : RetrieverEnv :=
  { embed := fun _ => .ok 0
    indexSearch := fun _ _ => [(0, 9), (1, 7)]
    metadata := fun _ => metaA
    rerankResponse := fun _ _ _ => .httpResponse 500 [] }

/-- The candidate list the FAISS stage produces in the two environments
above. -/
def candsTwo : List SearchResult := buildResults (fun _ => metaA) 0 [(0, 9), (1, 7)]

/-- A retriever with a reranker configured. -/
def retrWith : HybridRetriever := { rerankerConfigured := true }

/-- A retriever without a reranker. -/
def retrWithout : HybridRetriever := { rerankerConfigured := false }

/-! ## Lemmas: overlap injection -/

theorem addOverlapAux_length (pct : ℚ) (prev : List Char) (l : List (List Char)) :
    (addOverlapAux pct prev l).length = l.length := by
  induction l generalizing prev with
  | nil => rfl
  | cons c rest ih => simp [addOverlapAux, ih]

theorem addOverlap_length (chunks : List (List Char)) (pct : ℚ) :
    (addOverlap chunks pct).length = chunks.length := by
  cases chunks with
  | nil => rfl
  | cons c rest => simp [addOverlap, addOverlapAux_length]

theorem addOverlapAux_getD (pct : ℚ) (prev : List Char) (l : List (List Char)) :
    ∀ i : Nat, i < l.length →
      (addOverlapAux pct prev l).getD i []
        = overlapPrepend ((prev :: l).getD i []) pct (l.getD i []) := by
  induction l generalizing prev with
  | nil => intro i h; simp at h
  | cons c rest ih =>
      intro i h
      cases i with
      | zero => rfl
      | succ j =>
          have hj : j < rest.length := by simpa using h
          simpa [addOverlapAux] using ih c j hj

theorem dropWhile_idem (p : Char → Bool) (l : List Char) :
    (l.dropWhile p).dropWhile p = l.dropWhile p := by
  induction l with
  | nil => rfl
  | cons c rest ih =>
      by_cases h : p c
      · simpa [List.dropWhile_cons, h] using ih
      · simp [List.dropWhile_cons, h]

/-- Left-stripping the result of `overlapPrepend` yields a string that
begins with the (already left-stripped) overlap text. -/
theorem pyLstrip_overlapPrepend (prev c : List Char) (pct : ℚ) :
    ∃ tail, pyLstrip (overlapPrepend prev pct c)
      = pyLstrip (pySliceFrom prev (-(pyIntTimes prev.length pct))) ++ tail := by
  have hidem : (pyLstrip (pySliceFrom prev (-(pyIntTimes prev.length pct)))).dropWhile isPyWs
      = pyLstrip (pySliceFrom prev (-(pyIntTimes prev.length pct))) :=
    dropWhile_idem isPyWs _
  by_cases hε : pyLstrip (pySliceFrom prev (-(pyIntTimes prev.length pct))) = []
  · refine ⟨pyLstrip (nlnl ++ c), ?_⟩
    show pyLstrip _ = _
    rw [overlapPrepend]
    rw [hε, List.nil_append, List.nil_append]
  · refine ⟨nlnl ++ c, ?_⟩
    show List.dropWhile isPyWs _ = _
    rw [overlapPrepend]
    rw [List.append_assoc, List.dropWhile_append, hidem]
    simp [hε]

/-! ## C4: the overlap-injection law -/

/-- C4 counterexample: for `chunks = ["ab", "cd"]` and
`overlap_fraction = 0`, `floor(len("ab") * 0) = 0`, so the claim predicts
chunk 1 = `lstrip(last 0 chars) + "\n\n" + "cd" = "\n\ncd"`; the code's
Python slice `"ab"[-0:]` is the whole string, so chunk 1 is actually
`"ab\n\ncd"`. -/
theorem C4_counterexample :
    addOverlap [['a', 'b'], ['c', 'd']] 0
      = [['a', 'b'], ['a', 'b', '\n', '\n', 'c', 'd']]
    ∧ ['a', 'b', '\n', '\n', 'c', 'd']
      ≠ pyLstrip (specLastChars ['a', 'b']
          (pyIntTimes (['a', 'b'] : List Char).length 0).toNat) ++ nlnl ++ ['c', 'd'] := by
  constructor
  · decide
  · decide

/-- C4 (amended): `add_overlap` keeps the length and chunk 0, and for
`i > 0` the result is `prev[-k:].lstrip() + "\n\n" + chunks[i]` with
`k = int(len(prev) * pct)` and Python slice semantics (`prev[-0:]` is the
whole previous chunk); hence chunk `i`, after left-trim, begins with the
left-stripped slice of the pre-overlap previous chunk. -/
theorem C4_theorem (chunks : List (List Char)) (pct : ℚ) :
    (addOverlap chunks pct).length = chunks.length
    ∧ (addOverlap chunks pct).head? = chunks.head?
    ∧ ∀ i : Nat, i + 1 < chunks.length →
        (addOverlap chunks pct).getD (i + 1) []
          = overlapPrepend (chunks.getD i []) pct (chunks.getD (i + 1) [])
        ∧ ∃ tail, pyLstrip ((addOverlap chunks pct).getD (i + 1) [])
            = pyLstrip (pySliceFrom (chunks.getD i [])
                (-(pyIntTimes (chunks.getD i []).length pct))) ++ tail := by
  refine ⟨addOverlap_length chunks pct, ?_, ?_⟩
  · cases chunks with
    | nil => rfl
    | cons c rest => rfl
  · intro i h
    cases chunks with
    | nil => simp at h
    | cons c rest =>
        have hi : i < rest.length := by simpa using h
        have hget : (addOverlap (c :: rest) pct).getD (i + 1) []
            = overlapPrepend ((c :: rest).getD i []) pct ((c :: rest).getD (i + 1) []) := by
          have := addOverlapAux_getD pct c rest i hi
          simpa [addOverlap] using this
        refine ⟨hget, ?_⟩
        rw [hget]
        exact pyLstrip_overlapPrepend _ _ pct

/-- C4 witness: the amended law evaluated on `["aaaaaaaaaa", "cd"]` at
10% overlap (`k = 1`). -/
theorem C4_witness :
    (addOverlap [("aaaaaaaaaa".toList), ['c', 'd']] (mkRat 1 10)).getD 1 []
      = overlapPrepend ("aaaaaaaaaa".toList) (mkRat 1 10) ['c', 'd'] := by
  have h := (C4_theorem [("aaaaaaaaaa".toList), ['c', 'd']] (mkRat 1 10)).2.2 0 (by decide)
  simpa using h.1

/-! ## C3: the empty document -/

/-- C3 counterexample: chunking the empty document does *not* produce zero
chunks — the empty text becomes one section whose text the boundary
splitter returns as the single chunk `""`, so the coarse list has one
element (the claim asserts both lists are empty). -/
theorem C3_counterexample :
    (chunkDocument defaultConfig [] [] [] true).coarse.length = 1 := by
  decide

/-- C3 (amended): chunking a document with empty text and no headings
does not fail and yields exactly one coarse chunk with empty text,
zero-width span and `total_chunks = 1`, and zero fine chunks. -/
theorem C3_theorem (pid title : List Char) :
    chunkDocument defaultConfig [] pid title true
      = { coarse := [{ text := []
                       chunk_id := chunkIdOf pid coarseTy 0
                       chunk_type := coarseTy
                       paper_id := pid
                       paper_title := title
                       section_hierarchy := ["Document".toList]
                       char_start := 0
                       char_end := 0
                       chunk_index := 0
                       total_chunks := 1
                       overlap_with_previous := false }]
          fine := [] } := by
  rfl

/-! ## C6: hierarchy stack -/

/-- C6: each section's hierarchy comes from popping every stack entry
whose level is ≥ the new heading's level and pushing the new heading
(first conjunct, the head of the loop's output for any stack); on the §8
document the four sections carry hierarchies `["A"]`, `["A","B"]`,
`["A","C"]`, `["D"]` — in particular the section under `B` has
`["A","B"]` and the one under `D` has `["D"]`. -/
theorem C6_theorem :
    (∀ (lines : List (List Char)) (stack : List (List Char × Nat))
       (text : List Char) (lvl lineNum : Nat) (rest : List (List Char × Nat × Nat)),
        (sectionsAux lines stack ((text, lvl, lineNum) :: rest)).head?.map
            (·.heading_hierarchy)
          = some (((stack.filter fun h => h.2 < lvl).map Prod.fst) ++ [text]))
    ∧ (splitIntoSections docHier).map (·.heading_hierarchy)
        = [["A".toList], ["A".toList, "B".toList], ["A".toList, "C".toList], ["D".toList]] := by
  constructor
  · intro lines stack text lvl lineNum rest
    simp [sectionsAux]
  · decide

/-! ## Lemmas: coarse and fine chunk construction -/

theorem mkCoarse_length (pid title : List Char) (tot : Nat) :
    ∀ (i : Nat) (l : List (List Char × RawChunk)),
      (mkCoarse pid title tot i l).length = l.length := by
  intro i l
  induction l generalizing i with
  | nil => rfl
  | cons x rest ih => cases x; simp [mkCoarse, ih]

theorem mkCoarse_map_index (pid title : List Char) (tot : Nat) :
    ∀ (i : Nat) (l : List (List Char × RawChunk)),
      (mkCoarse pid title tot i l).map (·.chunk_index) = List.range' i l.length := by
  intro i l
  induction l generalizing i with
  | nil => rfl
  | cons x rest ih => cases x; simp [mkCoarse, List.range', ih]

theorem mkCoarse_map_total (pid title : List Char) (tot : Nat) :
    ∀ (i : Nat) (l : List (List Char × RawChunk)),
      (mkCoarse pid title tot i l).map (·.total_chunks) = List.replicate l.length tot := by
  intro i l
  induction l generalizing i with
  | nil => rfl
  | cons x rest ih => cases x; simp [mkCoarse, List.replicate_succ, ih]

theorem mkCoarse_mem (pid title : List Char) (tot : Nat) :
    ∀ (i : Nat) (l : List (List Char × RawChunk)) (c : Chunk),
      c ∈ mkCoarse pid title tot i l →
      c.char_end = c.char_start + c.text.length
      ∧ c.overlap_with_previous = decide (0 < c.chunk_index) := by
  intro i l
  induction l generalizing i with
  | nil => intro c hc; simp [mkCoarse] at hc
  | cons x rest ih =>
      intro c hc
      cases x with
      | mk t r =>
          simp only [mkCoarse, List.mem_cons] at hc
          rcases hc with h | h
          · subst h; exact ⟨rfl, rfl⟩
          · exact ih (i + 1) c h

theorem mkFine_length (parent : Chunk) :
    ∀ (g i : Nat) (l : List (List Char)), (mkFine parent g i l).length = l.length := by
  intro g i l
  induction l generalizing g i with
  | nil => rfl
  | cons t rest ih => simp [mkFine, ih]

theorem mkFine_map_index (parent : Chunk) :
    ∀ (g i : Nat) (l : List (List Char)),
      (mkFine parent g i l).map (·.chunk_index) = List.range' g l.length := by
  intro g i l
  induction l generalizing g i with
  | nil => rfl
  | cons t rest ih => simp [mkFine, List.range', ih]

theorem mkFine_mem (parent : Chunk) :
    ∀ (g i : Nat) (l : List (List Char)) (c : Chunk), c ∈ mkFine parent g i l →
      c.char_end = c.char_start + c.text.length
      ∧ c.section_hierarchy = parent.section_hierarchy
      ∧ c.char_start = parent.char_start := by
  intro g i l
  induction l generalizing g i with
  | nil => intro c hc; simp [mkFine] at hc
  | cons t rest ih =>
      intro c hc
      simp only [mkFine, List.mem_cons] at hc
      rcases hc with h | h
      · subst h; exact ⟨rfl, rfl, rfl⟩
      · exact ih (g + 1) (i + 1) c h

theorem mkFine_get_flag (parent : Chunk) :
    ∀ (g i : Nat) (l : List (List Char)) (j : Nat) (h : j < (mkFine parent g i l).length),
      ((mkFine parent g i l).get ⟨j, h⟩).overlap_with_previous = decide (0 < i + j) := by
  intro g i l
  induction l generalizing g i with
  | nil => intro j h; simp [mkFine] at h
  | cons t rest ih =>
      intro j h
      cases j with
      | zero => rfl
      | succ k =>
          have hk : k < (mkFine parent (g + 1) (i + 1) rest).length := by
            simpa [mkFine] using h
          have heq : i + (k + 1) = (i + 1) + k := by omega
          rw [heq]
          simpa [mkFine] using ih (g + 1) (i + 1) k hk

theorem fineLoop_map_index (cfg : ChunkerConfig) :
    ∀ (g : Nat) (cs : List Chunk),
      (fineLoop cfg g cs).map (·.chunk_index)
        = List.range' g (fineLoop cfg g cs).length := by
  intro g cs
  induction cs generalizing g with
  | nil => rfl
  | cons c rest ih =>
      simp only [fineLoop, List.map_append, List.length_append]
      rw [mkFine_map_index, ih (g + (finePieces cfg c).length), mkFine_length]
      have h := List.range'_append g (finePieces cfg c).length
        (fineLoop cfg (g + (finePieces cfg c).length) rest).length 1
      simp only [one_mul, Nat.add_comm] at h ⊢
      exact h

theorem fineLoop_mem (cfg : ChunkerConfig) :
    ∀ (g : Nat) (cs : List Chunk) (c : Chunk), c ∈ fineLoop cfg g cs →
      c.char_end = c.char_start + c.text.length
      ∧ ∃ p ∈ cs, c.section_hierarchy = p.section_hierarchy ∧ c.char_start = p.char_start := by
  intro g cs
  induction cs generalizing g with
  | nil => intro c hc; simp [fineLoop] at hc
  | cons p rest ih =>
      intro c hc
      simp only [fineLoop, List.mem_append] at hc
      rcases hc with h | h
      · obtain ⟨h1, h2, h3⟩ := mkFine_mem p g 0 (finePieces cfg p) c h
        exact ⟨h1, p, List.mem_cons_self p rest, h2, h3⟩
      · obtain ⟨h1, q, hq, h2⟩ := ih (g + (finePieces cfg p).length) c h
        exact ⟨h1, q, List.mem_cons_of_mem p hq, h2⟩

theorem coarseOverlapped_length (cfg : ChunkerConfig) (text : List Char) :
    (coarseOverlapped cfg text).length = (coarseRaw cfg text).length := by
  rw [coarseOverlapped, addOverlap_length, List.length_map]

theorem coarseZip_length (cfg : ChunkerConfig) (text : List Char) :
    ((coarseOverlapped cfg text).zip (coarseRaw cfg text)).length
      = (coarseOverlapped cfg text).length := by
  rw [List.length_zip, coarseOverlapped_length, Nat.min_self]

/-! ## C7: index contiguity and group cardinality -/

/-- C7: for each chunk type produced by `chunk_document`, the
`chunk_index` values are exactly `0..N-1` in order (for fine chunks one
single document-global sequence), and every member's `total_chunks` is
the group's cardinality `N`. -/
theorem C7_theorem (cfg : ChunkerConfig) (text pid title : List Char) :
    ((chunkDocument cfg text pid title true).coarse.map (·.chunk_index)
        = List.range (chunkDocument cfg text pid title true).coarse.length)
    ∧ ((chunkDocument cfg text pid title true).coarse.map (·.total_chunks)
        = List.replicate (chunkDocument cfg text pid title true).coarse.length
            (chunkDocument cfg text pid title true).coarse.length)
    ∧ ((chunkDocument cfg text pid title true).fine.map (·.chunk_index)
        = List.range (chunkDocument cfg text pid title true).fine.length)
    ∧ ((chunkDocument cfg text pid title true).fine.map (·.total_chunks)
        = List.replicate (chunkDocument cfg text pid title true).fine.length
            (chunkDocument cfg text pid title true).fine.length) := by
  have hcoarse : (chunkDocument cfg text pid title true).coarse
      = mkCoarse pid title (coarseOverlapped cfg text).length 0
          ((coarseOverlapped cfg text).zip (coarseRaw cfg text)) := rfl
  have hfine : (chunkDocument cfg text pid title true).fine
      = (fineLoop cfg 0 (createCoarseChunks cfg text pid title)).map
          (fun c => { c with
            total_chunks := (fineLoop cfg 0 (createCoarseChunks cfg text pid title)).length }) :=
    rfl
  refine ⟨?_, ?_, ?_, ?_⟩
  · rw [hcoarse, mkCoarse_map_index, mkCoarse_length, coarseZip_length,
      List.range_eq_range']
  · rw [hcoarse, mkCoarse_map_total, mkCoarse_length, coarseZip_length]
  · rw [hfine, List.map_map, List.length_map]
    have hproj : ((fun c : Chunk => c.chunk_index) ∘
        (fun c : Chunk => { c with
          total_chunks := (fineLoop cfg 0 (createCoarseChunks cfg text pid title)).length }))
        = fun c : Chunk => c.chunk_index := rfl
    rw [hproj, fineLoop_map_index, List.range_eq_range']
  · rw [hfine, List.map_map, List.length_map]
    have hproj : ((fun c : Chunk => c.total_chunks) ∘
        (fun c : Chunk => { c with
          total_chunks := (fineLoop cfg 0 (createCoarseChunks cfg text pid title)).length }))
        = fun _ : Chunk =>
            (fineLoop cfg 0 (createCoarseChunks cfg text pid title)).length := rfl
    rw [hproj]
    induction fineLoop cfg 0 (createCoarseChunks cfg text pid title) with
    | nil => rfl
    | cons c rest ih => simp [List.replicate_succ] at ih ⊢

/-! ## C8: span arithmetic and fine-chunk inheritance -/

/-- C8: every chunk's `char_end` is `char_start` plus the length of its
final (overlap-inflated) text, hence `char_start ≤ char_end`; and every
fine chunk inherits `section_hierarchy` and `char_start` verbatim from a
parent coarse chunk. -/
theorem C8_theorem (cfg : ChunkerConfig) (text pid title : List Char) :
    (∀ c ∈ (chunkDocument cfg text pid title true).coarse,
        c.char_end = c.char_start + c.text.length ∧ c.char_start ≤ c.char_end)
    ∧ (∀ c ∈ (chunkDocument cfg text pid title true).fine,
        c.char_end = c.char_start + c.text.length ∧ c.char_start ≤ c.char_end)
    ∧ (∀ c ∈ (chunkDocument cfg text pid title true).fine,
        ∃ p ∈ (chunkDocument cfg text pid title true).coarse,
          c.section_hierarchy = p.section_hierarchy ∧ c.char_start = p.char_start) := by
  have hfine : (chunkDocument cfg text pid title true).fine
      = (fineLoop cfg 0 (createCoarseChunks cfg text pid title)).map
          (fun c => { c with
            total_chunks := (fineLoop cfg 0 (createCoarseChunks cfg text pid title)).length }) :=
    rfl
  refine ⟨?_, ?_, ?_⟩
  · intro c hc
    have h := (mkCoarse_mem pid title (coarseOverlapped cfg text).length 0
      ((coarseOverlapped cfg text).zip (coarseRaw cfg text)) c hc).1
    exact ⟨h, by rw [h]; exact Nat.le_add_right _ _⟩
  · intro c hc
    rw [hfine, List.mem_map] at hc
    obtain ⟨c0, hc0, rfl⟩ := hc
    have h := (fineLoop_mem cfg 0 (createCoarseChunks cfg text pid title) c0 hc0).1
    exact ⟨h, by rw [show ({ c0 with
      total_chunks := (fineLoop cfg 0 (createCoarseChunks cfg text pid title)).length
        : Chunk }).char_end = c0.char_end from rfl, h]; exact Nat.le_add_right _ _⟩
  · intro c hc
    rw [hfine, List.mem_map] at hc
    obtain ⟨c0, hc0, rfl⟩ := hc
    obtain ⟨_, p, hp, h2, h3⟩ := fineLoop_mem cfg 0 (createCoarseChunks cfg text pid title) c0 hc0
    exact ⟨p, hp, h2, h3⟩

/-- C8 witness: the span law applied to the single coarse chunk of the
empty document. -/
theorem C8_witness :
    ((chunkDocument defaultConfig [] [] [] true).coarse.getD 0 noChunk).char_end
      = ((chunkDocument defaultConfig [] [] [] true).coarse.getD 0 noChunk).char_start
        + ((chunkDocument defaultConfig [] [] [] true).coarse.getD 0 noChunk).text.length :=
  ((C8_theorem defaultConfig [] [] []).1 _ (by decide)).1

/-! ## C10: the positional overlap flag -/

/-- C10: a coarse chunk's `overlap_with_previous` is true exactly when
its `chunk_index > 0`; a fine chunk's flag is true exactly when it is not
the first piece derived from its parent coarse chunk (`j > 0` within the
parent's piece list); and on a concrete document the second parent's
first fine piece has a positive global `chunk_index` with the flag false
— the flag is positional only. -/
theorem C10_theorem :
    (∀ (cfg : ChunkerConfig) (text pid title : List Char),
       ∀ c ∈ (chunkDocument cfg text pid title true).coarse,
         (c.overlap_with_previous = true ↔ 0 < c.chunk_index))
    ∧ (∀ (parent : Chunk) (g : Nat) (pieces : List (List Char)) (j : Nat)
         (h : j < (mkFine parent g 0 pieces).length),
         ((mkFine parent g 0 pieces).get ⟨j, h⟩).overlap_with_previous = decide (0 < j))
    ∧ ((chunkDocument cfgSmall docSmall [] [] true).fine.getD 1 noChunk).chunk_index = 1
    ∧ ((chunkDocument cfgSmall docSmall [] [] true).fine.getD 1 noChunk).overlap_with_previous
        = false := by
  refine ⟨?_, ?_, ?_, ?_⟩
  · intro cfg text pid title c hc
    have h := (mkCoarse_mem pid title (coarseOverlapped cfg text).length 0
      ((coarseOverlapped cfg text).zip (coarseRaw cfg text)) c hc).2
    rw [h]
    exact decide_eq_true_iff
  · intro parent g pieces j h
    simpa using mkFine_get_flag parent g 0 pieces j h
  · decide
  · decide

/-- C10 witness: the coarse-flag law applied to the first coarse chunk of
a concrete three-chunk document. -/
theorem C10_witness :
    ((chunkDocument cfgSmall docSmall [] [] true).coarse.getD 0 noChunk).overlap_with_previous
        = true
      ↔ 0 < ((chunkDocument cfgSmall docSmall [] [] true).coarse.getD 0 noChunk).chunk_index :=
  C10_theorem.1 cfgSmall docSmall [] [] _ (by decide)

/-! ## Lemmas: stripping -/

theorem length_dropWhile_le (p : Char → Bool) (l : List Char) :
    (l.dropWhile p).length ≤ l.length := by
  induction l with
  | nil => simp
  | cons c rest ih =>
      by_cases h : p c
      · simpa [List.dropWhile_cons, h] using Nat.le_succ_of_le ih
      · simp [List.dropWhile_cons, h]

theorem head_dropWhile_not (p : Char → Bool) (l : List Char) :
    ∀ c ∈ (l.dropWhile p).head?, p c = false := by
  induction l with
  | nil => simp
  | cons c rest ih =>
      intro d hd
      by_cases h : p c = true
      · exact ih d (by simpa [List.dropWhile_cons, h] using hd)
      · have hf : p c = false := by simpa using h
        rw [List.dropWhile_cons, if_neg (by simp [hf])] at hd
        simp only [List.head?_cons, Option.mem_def, Option.some.injEq] at hd
        subst hd
        exact hf

theorem pyRstrip_front (s : List Char) : pyRstrip s <+: s := by
  have h := (List.dropWhile_suffix (l := s.reverse) isPyWs).reverse
  rwa [List.reverse_reverse] at h

theorem head_of_front {u v : List Char} (h : u <+: v) (hu : u ≠ []) :
    u.head? = v.head? := by
  obtain ⟨t, rfl⟩ := h
  cases u with
  | nil => exact absurd rfl hu
  | cons c rest => rfl

theorem lstrip_eq_self_of_head (s : List Char)
    (h : ∀ c ∈ s.head?, isPyWs c = false) : pyLstrip s = s := by
  cases s with
  | nil => rfl
  | cons c rest =>
      have := h c (by simp)
      simp [pyLstrip, List.dropWhile_cons, this]

/-- A string whose first and last characters are not whitespace is fixed
by `strip()`. -/
theorem pyStrip_eq_self_of_ends (s : List Char)
    (h1 : ∀ c ∈ s.head?, isPyWs c = false)
    (h2 : ∀ c ∈ s.getLast?, isPyWs c = false) : pyStrip s = s := by
  have hl : pyLstrip s = s := lstrip_eq_self_of_head s h1
  have hrev : ∀ c ∈ s.reverse.head?, isPyWs c = false := by
    intro c hc
    exact h2 c (by rwa [List.head?_reverse] at hc)
  have hr : List.dropWhile isPyWs s.reverse = s.reverse :=
    lstrip_eq_self_of_head s.reverse hrev
  rw [pyStrip, hl, pyRstrip, hr, List.reverse_reverse]

/-- The ends of a stripped string are not whitespace. -/
theorem strip_ends_not_ws (s : List Char) :
    (∀ c ∈ (pyStrip s).head?, isPyWs c = false)
    ∧ (∀ c ∈ (pyStrip s).getLast?, isPyWs c = false) := by
  constructor
  · intro c hc
    by_cases hε : pyStrip s = []
    · rw [hε] at hc; simp at hc
    · have hpre : pyStrip s <+: pyLstrip s := pyRstrip_front (pyLstrip s)
      have hhead : (pyStrip s).head? = (pyLstrip s).head? := head_of_front hpre hε
      exact head_dropWhile_not isPyWs s c (by rwa [hhead] at hc)
  · intro c hc
    have : c ∈ (List.dropWhile isPyWs (pyLstrip s).reverse).head? := by
      rw [← List.head?_reverse] at hc
      have : (pyStrip s).reverse = List.dropWhile isPyWs (pyLstrip s).reverse := by
        rw [pyStrip, pyRstrip, List.reverse_reverse]
      rwa [this] at hc
    exact head_dropWhile_not isPyWs (pyLstrip s).reverse c this

/-- Python `strip()` is idempotent. -/
theorem pyStrip_idem (s : List Char) : pyStrip (pyStrip s) = pyStrip s :=
  pyStrip_eq_self_of_ends (pyStrip s) (strip_ends_not_ws s).1 (strip_ends_not_ws s).2

/-- Appending two strip-fixed nonempty strings around any middle yields a
strip-fixed string (the packing buffer `cur + "\n\n" + para`). -/
theorem pyStrip_append_fixed (a m b : List Char)
    (ha : pyStrip a = a) (ha' : a ≠ []) (hb : pyStrip b = b) (hb' : b ≠ []) :
    pyStrip (a ++ m ++ b) = a ++ m ++ b := by
  apply pyStrip_eq_self_of_ends
  · intro c hc
    have hhead : (a ++ m ++ b).head? = a.head? := by
      rw [List.append_assoc]
      exact (head_of_front (List.prefix_append a (m ++ b)) ha').symm
    rw [hhead] at hc
    have h := (strip_ends_not_ws a).1
    rw [ha] at h
    exact h c hc
  · intro c hc
    have hlast : (a ++ m ++ b).getLast? = b.getLast? := by
      rw [List.append_assoc, ← List.head?_reverse, List.reverse_append, ← List.head?_reverse]
      have hbne : b.reverse ≠ [] := by simpa using hb'
      exact (head_of_front ⟨m.reverse ++ a.reverse, by simp⟩ hbne).symm
    rw [hlast] at hc
    have h := (strip_ends_not_ws b).2
    rw [hb] at h
    exact h c hc

/-! ## Lemmas: the packing loop never breaks a paragraph -/

/-- The accumulator only ever grows by appends. -/
theorem packLoop_acc (maxSize : Nat) :
    ∀ (ps : List (List Char)) (cur : List Char) (acc : List (List Char)),
      packLoop maxSize ps cur acc = acc ++ packLoop maxSize ps cur [] := by
  intro ps
  induction ps with
  | nil =>
      intro cur acc
      by_cases h : cur = [] <;> simp [packLoop, h]
  | cons p rest ih =>
      intro cur acc
      simp only [packLoop]
      by_cases h : cur ≠ [] ∧ cur.length + p.length + 2 > maxSize
      · rw [if_pos h, if_pos h, ih p (acc ++ [pyStrip cur]), ih p ([] ++ [pyStrip cur])]
        simp
      · rw [if_neg h, if_neg h]
        exact ih _ acc

/-- A nonempty strip-fixed buffer always survives (as an infix of some
emitted chunk) to the end of the packing loop. -/
theorem packLoop_cur_whole (maxSize : Nat) :
    ∀ (ps : List (List Char)) (cur : List Char) (acc : List (List Char)),
      pyStrip cur = cur → cur ≠ [] →
      (∀ p ∈ ps, pyStrip p = p ∧ p ≠ []) →
      ∃ chunk ∈ packLoop maxSize ps cur acc, cur <:+: chunk := by
  intro ps
  induction ps with
  | nil =>
      intro cur acc hcur hne _
      refine ⟨cur, ?_, List.infix_refl cur⟩
      simp [packLoop, hne, hcur]
  | cons p rest ih =>
      intro cur acc hcur hne hps
      have hp := hps p (List.mem_cons_self p rest)
      simp only [packLoop]
      by_cases h : cur ≠ [] ∧ cur.length + p.length + 2 > maxSize
      · rw [if_pos h, packLoop_acc maxSize rest p (acc ++ [pyStrip cur])]
        refine ⟨cur, ?_, List.infix_refl cur⟩
        rw [hcur]
        exact List.mem_append_left _ (List.mem_append_right acc (List.mem_singleton_self cur))
      · rw [if_neg h, if_neg hne]
        have hcur2 : pyStrip (cur ++ nlnl ++ p) = cur ++ nlnl ++ p :=
          pyStrip_append_fixed cur nlnl p hcur hne hp.1 hp.2
        have hne2 : cur ++ nlnl ++ p ≠ [] := by simp [hne]
        obtain ⟨chunk, hm, hinf⟩ := ih (cur ++ nlnl ++ p) acc hcur2 hne2
          (fun q hq => hps q (List.mem_cons_of_mem p hq))
        exact ⟨chunk, hm,
          ((List.prefix_append cur nlnl).trans
            (List.prefix_append (cur ++ nlnl) p)).isInfix.trans hinf⟩

/-- Every (stripped, nonempty) paragraph survives whole: it is an infix
of some chunk emitted by the packing loop. -/
theorem packLoop_para_whole (maxSize : Nat) :
    ∀ (ps : List (List Char)) (cur : List Char) (acc : List (List Char)),
      (cur = [] ∨ (pyStrip cur = cur ∧ cur ≠ [])) →
      (∀ p ∈ ps, pyStrip p = p ∧ p ≠ []) →
      ∀ p ∈ ps, ∃ chunk ∈ packLoop maxSize ps cur acc, p <:+: chunk := by
  intro ps
  induction ps with
  | nil => intro cur acc _ _ p hp; simp at hp
  | cons q rest ih =>
      intro cur acc hcur hps p hp
      have hq := hps q (List.mem_cons_self q rest)
      have hrest : ∀ r ∈ rest, pyStrip r = r ∧ r ≠ [] :=
        fun r hr => hps r (List.mem_cons_of_mem q hr)
      simp only [packLoop]
      by_cases h : cur ≠ [] ∧ cur.length + q.length + 2 > maxSize
      · rw [if_pos h]
        rcases List.mem_cons.mp hp with rfl | hp'
        · exact packLoop_cur_whole maxSize rest p (acc ++ [pyStrip cur]) hq.1 hq.2 hrest
        · exact ih q (acc ++ [pyStrip cur]) (Or.inr hq) hrest p hp'
      · rw [if_neg h]
        by_cases hε : cur = []
        · rw [if_pos hε]
          rcases List.mem_cons.mp hp with rfl | hp'
          · exact packLoop_cur_whole maxSize rest p acc hq.1 hq.2 hrest
          · exact ih q acc (Or.inr hq) hrest p hp'
        · rw [if_neg hε]
          have hcur' : pyStrip cur = cur := by
            rcases hcur with h' | h'
            · exact absurd h' hε
            · exact h'.1
          have hcur2 : pyStrip (cur ++ nlnl ++ q) = cur ++ nlnl ++ q :=
            pyStrip_append_fixed cur nlnl q hcur' hε hq.1 hq.2
          have hne2 : cur ++ nlnl ++ q ≠ [] := by simp [hε]
          rcases List.mem_cons.mp hp with rfl | hp'
          · obtain ⟨chunk, hm, hinf⟩ :=
              packLoop_cur_whole maxSize rest (cur ++ nlnl ++ p) acc hcur2 hne2 hrest
            exact ⟨chunk, hm, (List.suffix_append (cur ++ nlnl) p).isInfix.trans hinf⟩
          · exact ih (cur ++ nlnl ++ q) acc (Or.inr ⟨hcur2, hne2⟩) hrest p hp'

/-! ## C5: the boundary splitter -/

set_option maxRecDepth 4000 in
/-- C5: `split_at_paragraph_boundary` returns `[text]` when
`len(text) ≤ max_size`; on three 40-character paragraphs with
`max_size = 85` it returns exactly two chunks — paragraphs 1+2 joined by
a blank line (82 chars) and paragraph 3 alone (40 chars); a single
(stripped, nonempty) paragraph is emitted whole even when longer than
`max_size`; and in general the splitter never breaks inside a paragraph:
every nonempty stripped paragraph of the input is an infix of some
output chunk. -/
theorem C5_theorem :
    (∀ (text : List Char) (maxSize : Nat), text.length ≤ maxSize →
        splitAtParagraphBoundary text maxSize = [text])
    ∧ splitAtParagraphBoundary docPack 85 = [para40 'a' ++ nlnl ++ para40 'b', para40 'c']
    ∧ (para40 'a' ++ nlnl ++ para40 'b').length = 82
    ∧ (para40 'c').length = 40
    ∧ (∀ (text : List Char) (maxSize : Nat) (p : List Char),
        maxSize < text.length →
        ((splitParas text).map pyStrip).filter (· ≠ []) = [p] →
        splitAtParagraphBoundary text maxSize = [p])
    ∧ (∀ (text : List Char) (maxSize : Nat),
        maxSize < text.length →
        ∀ p ∈ ((splitParas text).map pyStrip).filter (· ≠ []),
          ∃ chunk ∈ splitAtParagraphBoundary text maxSize, p <:+: chunk) := by
  have hstripped : ∀ (text : List Char),
      ∀ p ∈ ((splitParas text).map pyStrip).filter (· ≠ []), pyStrip p = p ∧ p ≠ [] := by
    intro text p hp
    obtain ⟨hmem, hne⟩ := List.mem_filter.mp hp
    obtain ⟨q, _, hq⟩ := List.mem_map.mp hmem
    exact ⟨by rw [← hq, pyStrip_idem], by simpa using hne⟩
  refine ⟨?_, by decide, by decide, by decide, ?_, ?_⟩
  · intro text maxSize h
    rw [splitAtParagraphBoundary, if_pos h]
  · intro text maxSize p hlt hfilter
    have hp : p ∈ ((splitParas text).map pyStrip).filter (· ≠ []) := by
      rw [hfilter]; exact List.mem_singleton_self p
    obtain ⟨hps, hne⟩ := hstripped text p hp
    rw [splitAtParagraphBoundary, if_neg (by omega), hfilter]
    simp [packLoop, hne, hps]
  · intro text maxSize hlt p hp
    rw [splitAtParagraphBoundary, if_neg (by omega)]
    exact packLoop_para_whole maxSize _ [] [] (Or.inl rfl) (hstripped text) p hp

/-- C5 witness: the small-text case and the long-single-paragraph case at
concrete inputs. -/
theorem C5_witness :
    splitAtParagraphBoundary ['h', 'i'] 5 = [['h', 'i']]
    ∧ splitAtParagraphBoundary ("aaaa\nbbbb".toList) 5 = ["aaaa\nbbbb".toList] := by
  constructor
  · exact C5_theorem.1 ['h', 'i'] 5 (by decide)
  · exact C5_theorem.2.2.2.2.1 ("aaaa\nbbbb".toList) 5 ("aaaa\nbbbb".toList)
      (by decide) (by decide)

/-! ## Lemmas: FAISS result ranks -/

theorem buildResults_rank (meta : Int → ChunkMeta) :
    ∀ (raw : List (Int × Int)) (r0 j : Nat) (h : j < (buildResults meta r0 raw).length),
      ((buildResults meta r0 raw).get ⟨j, h⟩).rank = r0 + j := by
  intro raw
  induction raw with
  | nil => intro r0 j h; simp [buildResults] at h
  | cons x rest ih =>
      intro r0 j h
      cases x with
      | mk idx score =>
          by_cases hidx : idx = -1
          · rw [buildResults, if_pos hidx] at h
            simp at h
          · cases j with
            | zero => simp [buildResults, hidx]
            | succ k =>
                have hk : k < (buildResults meta (r0 + 1) rest).length := by
                  rw [buildResults, if_neg hidx] at h
                  simpa using h
                have heq : r0 + (k + 1) = (r0 + 1) + k := by omega
                rw [heq]
                have hg : ((buildResults meta r0 ((idx, score) :: rest)).get ⟨k + 1, h⟩)
                    = (buildResults meta (r0 + 1) rest).get ⟨k, hk⟩ := by
                  simp [buildResults, hidx]
                rw [hg]
                exact ih (r0 + 1) k hk

/-! ## C9: truncation without reranking -/

/-- C9: when `use_reranker` is false or no reranker is configured,
`search` returns the FAISS candidates truncated to `top_k` in similarity
order, the `j`-th returned result has `rank = j`, and no
configuration-style failure is raised for the requested-but-absent
reranker (the code has no such check; it silently falls back to
truncation). -/
theorem C9_theorem (env : RetrieverEnv) (r : HybridRetriever) (query : List Char)
    (top_k : Nat) (use_reranker : Bool)
    (hnr : use_reranker = false ∨ r.rerankerConfigured = false) :
    ∀ (cands : List SearchResult) (log : List CallEvent),
      faissSearch env query r.faiss_candidates = (.ok cands, log) →
      (hybridSearch env r query top_k use_reranker).1 = .ok (cands.take top_k)
      ∧ (∀ (j : Nat) (h : j < (cands.take top_k).length),
          ((cands.take top_k).get ⟨j, h⟩).rank = j)
      ∧ (hybridSearch env r query top_k use_reranker).1 ≠ .error PyErr.configurationFailure := by
  intro cands log hfaiss
  have hres : (hybridSearch env r query top_k use_reranker).1 = .ok (cands.take top_k) := by
    rcases hnr with h | h <;> simp [hybridSearch, hfaiss, h]
  refine ⟨hres, ?_, by rw [hres]; intro hx; cases hx⟩
  intro j h
  rcases hembed : env.embed query with e | emb
  · simp [faissSearch, hembed] at hfaiss
  · simp only [faissSearch, hembed] at hfaiss
    have hc : cands = buildResults env.metadata 0 (env.indexSearch emb r.faiss_candidates) := by
      have := congrArg (fun p => p.1) hfaiss
      simpa using this.symm
    subst hc
    have hjlen : j < (buildResults env.metadata 0
        (env.indexSearch emb r.faiss_candidates)).length := by
      rw [List.length_take] at h
      omega
    have hget : ((buildResults env.metadata 0
          (env.indexSearch emb r.faiss_candidates)).take top_k).get ⟨j, h⟩
        = (buildResults env.metadata 0 (env.indexSearch emb r.faiss_candidates)).get
            ⟨j, hjlen⟩ := by
      simp [List.get_eq_getElem, List.getElem_take]
    rw [hget]
    simpa using buildResults_rank env.metadata _ 0 j hjlen

/-- C9 witness: with a reranker requested but not configured, the
two-candidate environment yields the truncated candidate list and no
configuration failure. -/
theorem C9_witness :
    (hybridSearch envHttp500 retrWithout ['h'] 1 true).1 = .ok (candsTwo.take 1)
    ∧ (hybridSearch envHttp500 retrWithout ['h'] 1 true).1
        ≠ .error PyErr.configurationFailure := by
  have h := C9_theorem envHttp500 retrWithout ['h'] 1 true (Or.inr rfl) candsTwo
    [.embedCall ['h'], .indexCall] rfl
  exact ⟨h.1, h.2.2⟩

/-! ## C1: reranker failure handling -/

/-- C1 counterexample: with a configured reranker whose HTTP call suffers
a transport error (timeout / connection failure), `requests.post` raises
and no try/except catches it — `search` propagates the exception instead
of returning the un-reranked `candidates[:top_k]`. -/
theorem C1_counterexample :
    (hybridSearch envTransport retrWith ['h', 'i'] 1 true).1 = .error PyErr.transport := by
  decide

/-- C1 (amended): only a *non-success HTTP response* from the reranker is
degraded: `rerank` then returns `results[:top_k]` in the original
similarity order and `search` does not raise.  (A transport error, by
contrast, propagates — see the counterexample.) -/
theorem C1_theorem (env : RetrieverEnv) (r : HybridRetriever) (query : List Char)
    (top_k : Nat) (cands : List SearchResult) (log : List CallEvent)
    (status : Nat) (body : List (Nat × Option Int))
    (hconf : r.rerankerConfigured = true)
    (hfaiss : faissSearch env query r.faiss_candidates = (.ok cands, log))
    (hresp : env.rerankResponse query (cands.map (·.text))
        (min top_k (cands.map (·.text)).length) = .httpResponse status body)
    (hstatus : status ≠ 200) :
    (hybridSearch env r query top_k true).1 = .ok (cands.take top_k) := by
  by_cases hε : cands.isEmpty
  · have hnil : cands = [] := by simpa using hε
    subst hnil
    simp [hybridSearch, hfaiss, hconf, rerank]
  · have hresp' : env.rerankResponse query (cands.map (·.text)) (min top_k cands.length)
        = .httpResponse status body := by simpa using hresp
    simp [hybridSearch, hfaiss, hconf, rerank, hε, hresp', hstatus]

/-- C1 witness: a 500 response from the reranker degrades to the
truncated candidate list. -/
theorem C1_witness :
    (hybridSearch envHttp500 retrWith ['h'] 1 true).1 = .ok (candsTwo.take 1) :=
  C1_theorem envHttp500 retrWith ['h'] 1 candsTwo [.embedCall ['h'], .indexCall] 500 []
    rfl rfl rfl (by decide)

/-! ## C2: empty-query validation -/

/-- C2 counterexample: `HybridRetriever.search` performs no empty-query
validation — on an all-whitespace query it still invokes the embedder
(a network call) and raises no validation error. -/
theorem C2_counterexample :
    CallEvent.embedCall [' '] ∈ (hybridSearch envHttp500 retrWith [' '] 5 true).2
    ∧ (hybridSearch envHttp500 retrWith [' '] 5 true).1 ≠ .error PyErr.validationFailure := by
  constructor
  · decide
  · decide

/-- C2 (amended): the empty-query validation lives in the API layer's
`/search` endpoint, which rejects a query whose `strip()` is empty with
HTTP 400 before any retriever call (its call log is empty);
`HybridRetriever.search` itself validates nothing — its first recorded
action on *every* call, whatever the query, is the embedder network
call. -/
theorem C2_theorem :
    (∀ (env : RetrieverEnv) (r : HybridRetriever) (req : ApiSearchRequest),
        pyStrip req.query = [] →
        apiSearch env (some r) req
          = (.error (.httpException 400 "Query cannot be empty"), []))
    ∧ (∀ (env : RetrieverEnv) (r : HybridRetriever) (query : List Char)
        (top_k : Nat) (use_reranker : Bool),
        ((hybridSearch env r query top_k use_reranker).2).head?
          = some (.embedCall query)) := by
  constructor
  · intro env r req h
    simp [apiSearch, h]
  · intro env r query top_k use_reranker
    rcases hembed : env.embed query with e | emb
    · simp [hybridSearch, faissSearch, hembed]
    · by_cases hur : use_reranker ∧ r.rerankerConfigured = true <;>
        simp [hybridSearch, faissSearch, hembed, hur]

/-- C2 witness: the endpoint rejects a whitespace query with HTTP 400
and an empty call log. -/
theorem C2_witness :
    apiSearch envHttp500 (some retrWith) { query := [' ', '\t'] }
      = (.error (.httpException 400 "Query cannot be empty"), []) :=
  C2_theorem.1 envHttp500 retrWith { query := [' ', '\t'] } (by decide)

end RagPipeline
